import Mathlib

/-!
Verification development for the claude-logger log-tailing tool.

The Rust source is shallowly embedded:
* file contents are sequences of characters (`String` / `List Char`; the
  counterexample inputs are ASCII, so characters coincide with bytes and
  `String.length` coincides with Rust's byte length `str::len`);
* JSON values (`serde_json::Value`) are an inductive `Json`, numbers as `Int`;
* timestamps are `Int` instants; the external RFC3339 parser
  (`chrono::DateTime::parse_from_rfc3339`) and the external JSON text parser
  (`serde_json::from_str`) are abstracted as function parameters;
* fallible operations return `Option` / `Except`.
-/

set_option maxHeartbeats 1000000

namespace ClaudeLogger

/-- JSON values as produced by the external JSON library (`serde_json::Value`).
Objects keep their fields as an association list; `Json.lookup` finds the
first binding, matching a parsed JSON map (duplicate keys are collapsed by
the external parser, so at most one binding per key occurs in practice). -/
inductive Json where
  | null
  | bool (b : Bool)
  | num (n : Int)
  | str (s : String)
  | arr (items : List Json)
  | obj (fields : List (String × Json))

/-- Field lookup in a JSON object's field list (`serde_json::Map::get`). -/
def Json.lookup (fields : List (String × Json)) (key : String) : Option Json :=
  match fields with
  | [] => none
  | (k, v) :: rest => if k = key then some v else Json.lookup rest key

/-- Model of `Value::as_str`. -/
def Json.asStr : Json → Option String
  | .str s => some s
  | _ => none

/-- Model of `Value::as_object` (the field list of an object). -/
def Json.asObj : Json → Option (List (String × Json))
  | .obj fs => some fs
  | _ => none

mutual

/-- Approximation of `serde_json::Value`'s `Debug` rendering, used only in the
fallback branch of `extract_content` (no claim depends on its exact text). -/
def jsonDebug : Json → String
  | .null => "Null"
  | .bool b => "Bool(" ++ toString b ++ ")"
  | .num n => "Number(" ++ toString n ++ ")"
  | .str s => "String(\x22" ++ s ++ "\x22)"
  | .arr items => "Array [" ++ jsonDebugList items ++ "]"
  | .obj fields => "Object \x7b" ++ jsonDebugFields fields ++ "\x7d"

/-- Comma-separated `Debug` rendering of array elements. -/
def jsonDebugList : List Json → String
  | [] => ""
  | [j] => jsonDebug j
  | j :: rest => jsonDebug j ++ ", " ++ jsonDebugList rest

/-- Comma-separated `Debug` rendering of object fields. -/
def jsonDebugFields : List (String × Json) → String
  | [] => ""
  | [(k, v)] => "\x22" ++ k ++ "\x22: " ++ jsonDebug v
  | (k, v) :: rest => "\x22" ++ k ++ "\x22: " ++ jsonDebug v ++ ", " ++ jsonDebugFields rest

end

/-- Rust's `char::is_whitespace`: the Unicode `White_Space` property. -/
def rustIsWhitespace (c : Char) : Bool :=
  decide ((0x09 ≤ c.toNat ∧ c.toNat ≤ 0x0D) ∨ c.toNat = 0x20 ∨ c.toNat = 0x85 ∨
    c.toNat = 0xA0 ∨ c.toNat = 0x1680 ∨ (0x2000 ≤ c.toNat ∧ c.toNat ≤ 0x200A) ∨
    c.toNat = 0x2028 ∨ c.toNat = 0x2029 ∨ c.toNat = 0x202F ∨ c.toNat = 0x205F ∨
    c.toNat = 0x3000)

/-- Trailing-whitespace removal on a character list. -/
def trimEndL (cs : List Char) : List Char :=
  (cs.reverse.dropWhile rustIsWhitespace).reverse

/-- Rust's `str::trim_end`. -/
def rustTrimEnd (s : String) : String := String.mk (trimEndL s.data)

/-- Rust's `str::trim` (both ends). -/
def rustTrim (s : String) : String :=
  String.mk (trimEndL (s.data.dropWhile rustIsWhitespace))

/-- One trailing carriage return removed (`BufRead::lines` strips `\r\n`). -/
def stripCr (cs : List Char) : List Char :=
  if cs.getLast? = some '\r' then cs.dropLast else cs

/-- Worker for `rustLines`: `acc` holds the current (reversed) line. A final
fragment not terminated by a newline is still yielded, exactly as
`BufRead::lines` yields it (this is the source of the partial-line bug). -/
def linesGo (acc : List Char) (cs : List Char) : List (List Char) :=
  match cs with
  | [] => if acc.isEmpty then [] else [acc.reverse]
  | c :: rest =>
      if c = '\n' then stripCr acc.reverse :: linesGo [] rest
      else linesGo (c :: acc) rest

/-- The sequence of lines `BufRead::lines` yields for the given text:
split at `\n`, strip a `\r` preceding each `\n`, keep an unterminated final
fragment, produce nothing for empty input. -/
def rustLines (s : String) : List String :=
  (linesGo [] s.data).map String.mk

/-!  ### parser.rs  -/

/-- Model of `MessageRole` (parser.rs). -/
inductive MessageRole where
  | user
  | assistant
  | system
deriving DecidableEq

/-- Model of `LogMessage` (parser.rs): the structured entry produced by `parse_line`.
Timestamps are `Int` instants (`DateTime<Utc>` abstracted). -/
structure LogMessage where
  role : MessageRole
  content : String
  timestamp : Int
  session_id : String
  uuid : String
deriving DecidableEq

/-- Model of `RawLogEntry` (parser.rs): the serde view of one JSONL record. -/
structure RawLogEntry where
  entry_type : String
  message : Option Json
  timestamp : String
  session_id : Option String
  uuid : String

/-- Model of `MessageContent` (parser.rs): the serde view of the `message` field. -/
structure RawMessageContent where
  role : String
  content : Json

/-- serde's treatment of the `message: Option<Value>` field: absent or `null`
gives `None`, anything else `Some`. -/
def messageField : Option Json → Option Json
  | none => none
  | some .null => none
  | some v => some v

/-- serde's treatment of the `sessionId: Option<String>` field: absent or
`null` give `None`, a string gives `Some`, any other value is a
deserialization error. -/
def sessionIdField : Option Json → Option (Option String)
  | none => some none
  | some .null => some none
  | some (.str s) => some (some s)
  | some _ => none

/-- Model of `serde_json::from_value::<RawLogEntry>` on an already-parsed value:
requires an object with string fields `type`, `timestamp`, `uuid`, an
optional `message` value and an optional string `sessionId`. -/
def deserRaw (j : Json) : Option RawLogEntry :=
  match j.asObj with
  | none => none
  | some fs =>
    match (Json.lookup fs "type").bind Json.asStr with
    | none => none
    | some t =>
      match (Json.lookup fs "timestamp").bind Json.asStr with
      | none => none
      | some ts =>
        match (Json.lookup fs "uuid").bind Json.asStr with
        | none => none
        | some u =>
          match sessionIdField (Json.lookup fs "sessionId") with
          | none => none
          | some sid =>
            some { entry_type := t, message := messageField (Json.lookup fs "message"),
                   timestamp := ts, session_id := sid, uuid := u }

/-- Model of `serde_json::from_value::<MessageContent>`: an object with a string
`role` and an arbitrary `content` value. -/
def deserMessageContent (j : Json) : Option RawMessageContent :=
  match j.asObj with
  | none => none
  | some fs =>
    match (Json.lookup fs "role").bind Json.asStr with
    | none => none
    | some r =>
      match Json.lookup fs "content" with
      | none => none
      | some c => some { role := r, content := c }

/-- The `match content_msg.role.as_str()` arm of `parse_line`. -/
def roleOf (r : String) : Option MessageRole :=
  if r = "user" then some .user
  else if r = "assistant" then some .assistant
  else if r = "system" then some .system
  else none

/-- The contribution of one array item to `extract_content`'s result
(one iteration of its `for` loop), `none` when the item adds nothing:
non-objects and objects without a `type` field are skipped; a `text` block
without a string `text` field and a `tool_use` block without a string `name`
field are skipped as well. -/
def content_piece (item : Json) : Option String :=
  match item.asObj with
  | none => none
  | some fs =>
    match Json.lookup fs "type" with
    | none => none
    | some tj =>
      let t := tj.asStr.getD ""
      if t = "text" then (Json.lookup fs "text").bind Json.asStr
      else if t = "tool_use" then
        ((Json.lookup fs "name").bind Json.asStr).map (fun n => "[Tool Use: " ++ n ++ "]")
      else if t = "tool_result" then some "[Tool Result]"
      else if t = "thinking" then some "[Thinking...]"
      else some ("[" ++ tj.asStr.getD "unknown" ++ "]")

/-- Model of `LogParser::extract_content` (parser.rs): a plain string is returned
as-is; an array is rendered one block per line and `trim_end`ed; anything
else falls back to a `Debug` rendering. -/
def extract_content (content : Json) : String :=
  match content with
  | .str s => s
  | .arr items =>
      rustTrimEnd (String.join ((items.filterMap content_piece).map (fun piece => piece ++ "\n")))
  | other => "Message content: " ++ jsonDebug other

/-- Model of `LogParser::parse_line` (parser.rs). The external JSON text parser `jp`
(`serde_json::from_str`) and RFC3339 timestamp parser `tp`
(`DateTime::parse_from_rfc3339`) are abstracted as parameters. -/
def parse_line (jp : String → Option Json) (tp : String → Option Int)
    (line : String) : Except String LogMessage :=
  match jp line with
  | none => Except.error "Failed to parse JSON"
  | some j =>
    match deserRaw j with
    | none => Except.error "Failed to parse JSON"
    | some raw =>
      if raw.entry_type ≠ "user" ∧ raw.entry_type ≠ "assistant" then
        Except.error "Not a message type"
      else
        match raw.message with
        | none => Except.error "Message field not found"
        | some msg =>
          match deserMessageContent msg with
          | none => Except.error "Failed to parse message content"
          | some cm =>
            match roleOf cm.role with
            | none => Except.error ("Unknown role: " ++ cm.role)
            | some role =>
              match tp raw.timestamp with
              | none => Except.error "Failed to parse timestamp"
              | some ts =>
                Except.ok { role := role, content := extract_content cm.content,
                            timestamp := ts,
                            session_id := raw.session_id.getD "unknown", uuid := raw.uuid }

/-- The reading loop of `LogParser::parse_file` (parser.rs, lines 57-72) at
line granularity: seek to `last_position`, read the remaining text with
`BufRead::lines`, and advance the position by `line.len() + 1` for every
yielded line (the `+ 1` stands for the newline byte, added even for an
unterminated final fragment — the source of the partial-line bug). This is
the spec's Reader contract `read_new(path) -> sequence of raw_line`. -/
def read_new (content : String) (last_position : Nat) : List String × Nat :=
  let ls := rustLines (String.mk (content.data.drop last_position))
  (ls, ls.foldl (fun p l => p + l.length + 1) last_position)

/-- Model of `LogParser::parse_file` (parser.rs): fails when the file cannot be
opened (`content = none`); otherwise reads the unconsumed lines, keeps the
ones `parse_line` accepts, and returns them with the new cursor value. -/
def parse_file (pl : String → Except String LogMessage)
    (content : Option String) (last_position : Nat) :
    Except Unit (List LogMessage × Nat) :=
  match content with
  | none => Except.error ()
  | some c =>
    let r := read_new c last_position
    Except.ok (r.1.filterMap (fun l => (pl l).toOption), r.2)

/-- Model of `parse_file` together with its effect on the `LogParser` state: the new
`last_position` is stored only on success; an early error return leaves the
cursor untouched. -/
def parse_file_state (pl : String → Except String LogMessage)
    (content : Option String) (last_position : Nat) :
    Except Unit (List LogMessage) × Nat :=
  match parse_file pl content last_position with
  | .ok (ms, p) => (.ok ms, p)
  | .error e => (.error e, last_position)

/-!  ### webhook.rs  -/

/-- Model of `WebhookResult` (webhook.rs). -/
inductive WebhookResult where
  | sent
  | skipped
deriving DecidableEq

/-- The per-object predicate of the `has_text` computation inside
`WebhookSender::is_low_information_message_for_webhook` (webhook.rs,
lines 85-93): the object has string type `"text"` and a string `text`
field whose trimmed value is non-empty (`unwrap_or(false)` otherwise). -/
def text_block_flag (fs : List (String × Json)) : Bool :=
  match (Json.lookup fs "type").bind Json.asStr with
  | some t =>
      if t = "text" then
        match (Json.lookup fs "text").bind Json.asStr with
        | some txt => !(rustTrim txt).isEmpty
        | none => false
      else false
  | none => false

/-- The `has_text` computation of webhook.rs lines 85-93: some object item
of the array satisfies `text_block_flag`. -/
def has_meaningful_text (arr : List Json) : Bool :=
  (arr.filterMap Json.asObj).any text_block_flag

/-- The string `type` fields of the object items of a content array
(the `filter_map(as_object).filter_map(get "type" as_str)` chain). -/
def content_types (arr : List Json) : List String :=
  (arr.filterMap Json.asObj).filterMap (fun fs => (Json.lookup fs "type").bind Json.asStr)

/-- The string `name` fields of the object items of a content array
(the `filter_map(as_object).filter_map(get "name" as_str)` chain). -/
def content_names (arr : List Json) : List String :=
  (arr.filterMap Json.asObj).filterMap (fun fs => (Json.lookup fs "name").bind Json.asStr)

/-- Model of `WebhookSender::is_low_information_message_for_webhook` (webhook.rs):
no raw structured body, or a non-array body, is never filtered; otherwise a
message without meaningful text is filtered when all its typed items are
`tool_result`, or when every `tool_use` item passes the check that every
string `name` field across the whole array is `Read` or `Edit` (note:
the inner `all` ranges over the names of all items, not only the `tool_use`
ones, and is vacuously true when there is no `tool_use` item). -/
def is_low_information_message_for_webhook (raw_content : Option Json) : Bool :=
  match raw_content with
  | some (Json.arr arr) =>
    if has_meaningful_text arr then false
    else
      let only_tool_results := (content_types arr).all (fun t => t = "tool_result")
      let only_read_edit_tools := ((content_types arr).filter (fun t => t = "tool_use")).all
        (fun _ => (content_names arr).all (fun n => n = "Read" || n = "Edit"))
      only_tool_results || only_read_edit_tools
  | _ => false

/-- Model of `WebhookSender::send_message` (webhook.rs): a low-information message is
skipped before any network activity; otherwise the HTTP POST (abstracted by
the oracle `net`: `none` = transport error, `some false` = non-success
status, `some true` = success) decides between an error and `Sent`. Only the
`raw_content` field of the message feeds the decision. -/
def send_message (net : Option Bool) (raw_content : Option Json) :
    Except Unit WebhookResult :=
  if is_low_information_message_for_webhook raw_content then Except.ok .skipped
  else
    match net with
    | none => Except.error ()
    | some true => Except.ok .sent
    | some false => Except.error ()

/-!  ### watcher.rs  -/

/-- The fields of a delivered entry that `LogWatcher::process_jsonl_file` and
`WebhookSender::send_message` inspect themselves: the timestamp (cutoff
gate) and the raw structured body (noise gate). The human-readable rendering
is the external `render(entry, options) -> string` collaborator and is
abstracted as a function parameter below. -/
structure Entry where
  timestamp : Int
  raw_content : Option Json

/-- The cutoff test of `LogWatcher::process_jsonl_file` (watcher.rs,
lines 287-290): `!self.include_existing && message.timestamp < self.startup_time`
makes the loop `continue` without emitting anything. -/
def cutoff_skips (include_existing : Bool) (ts startup_time : Int) : Bool :=
  !include_existing && decide (ts < startup_time)

/-- One iteration of the message loop of `LogWatcher::process_jsonl_file`
(watcher.rs, lines 286-310). Returns the line printed to stdout (`none`
when nothing is printed) and whether a webhook send was attempted.
`webhook = none` models an unconfigured `webhook_sender`; `some net` passes
the network oracle to `send_message`. -/
def process_message (include_existing : Bool) (startup_time : Int)
    (webhook : Option (Option Bool)) (format : Entry → String) (m : Entry) :
    Option String × Bool :=
  if cutoff_skips include_existing m.timestamp startup_time then (none, false)
  else
    let formatted := format m
    if (rustTrim formatted).isEmpty then (none, false)
    else
      match webhook with
      | none => (some formatted, false)
      | some net =>
        let webhook_status :=
          match send_message net m.raw_content with
          | .ok .sent => ""
          | .ok .skipped => " [webhook: skipped]"
          | .error _ => " [webhook: failed]"
        (some (formatted ++ webhook_status), true)

/-- The whole message loop of `LogWatcher::process_jsonl_file`: the sequence
of stdout lines it prints. A webhook error is handled inside the iteration
(`match webhook.send_message(...)`), so the loop never aborts early. -/
def process_messages (include_existing : Bool) (startup_time : Int)
    (webhook : Option (Option Bool)) (format : Entry → String) :
    List Entry → List String
  | [] => []
  | m :: rest =>
    match (process_message include_existing startup_time webhook format m).1 with
    | some line => line :: process_messages include_existing startup_time webhook format rest
    | none => process_messages include_existing startup_time webhook format rest

/-- A directory entry as the session resolver sees it: the file name (final
path component) and its filesystem modification time. -/
structure FsFile where
  name : String
  mtime : Int
deriving DecidableEq

/-- Splits reversed name characters at the first `.` seen (= the last `.` of
the name): `some (reversed extension, reversed stem)`. -/
def rsplitDot : List Char → Option (List Char × List Char)
  | [] => none
  | c :: rest =>
      if c = '.' then some ([], rest)
      else (rsplitDot rest).map (fun p => (c :: p.1, p.2))

/-- Rust's `Path::extension` on a file name: the portion after the last `.`,
`none` when there is no `.` or when the only `.` is the leading character
(hidden files). -/
def rustExtension (name : String) : Option String :=
  match rsplitDot name.data.reverse with
  | some (extRev, stemRev) =>
      if stemRev.isEmpty then none else some (String.mk extRev.reverse)
  | none => none

/-- The extension filter of the resolver:
`path.extension().and_then(to_str) == Some("jsonl")`. -/
def is_jsonl (f : FsFile) : Bool := rustExtension f.name == some "jsonl"

/-- One step of `Iterator::max_by_key` on modification times: on ties
(`a.mtime ≤ f.mtime` includes equality) the later element wins, matching
Rust's documented "last element" tie-break. -/
def pick_latest (acc : Option FsFile) (f : FsFile) : Option FsFile :=
  match acc with
  | none => some f
  | some a => if a.mtime ≤ f.mtime then some f else some a

/-- Model of `max_by_key(|(_, modified)| *modified)` over a candidate list. -/
def max_by_mtime (files : List FsFile) : Option FsFile :=
  files.foldl pick_latest none

/-- The shared core of both resolver functions: filter to the `.jsonl`
extension, then take the modification-time maximum. -/
def latest_jsonl (files : List FsFile) : Option FsFile :=
  max_by_mtime (files.filter is_jsonl)

/-- Model of `LogWatcher::get_latest_session_in_project` (watcher.rs): `none` models
a failing `read_dir` (directory not found); otherwise the latest `.jsonl`
file, or the distinct "No session files found in project" error. -/
def get_latest_session_in_project (dir : Option (List FsFile)) : Except String String :=
  match dir with
  | none => Except.error "Project directory not found"
  | some files =>
    match latest_jsonl files with
    | some f => Except.ok f.name
    | none => Except.error "No session files found in project"

/-- Model of `LogWatcher::get_latest_session` (watcher.rs): flattens the per-project
directory listings (a failing per-project `read_dir` contributes nothing,
matching `read_dir(..).into_iter().flatten()`), then selects exactly like
the project-scoped resolver. -/
def get_latest_session (root : Option (List (Option (List FsFile)))) : Except String String :=
  match root with
  | none => Except.error "Claude projects directory not found"
  | some dirs =>
    match latest_jsonl (dirs.filterMap id).flatten with
    | some f => Except.ok f.name
    | none => Except.error "No session files found"

/-- Model of `ToolDisplayMode` (main.rs). -/
inductive ToolDisplayMode where
  | noneMode
  | simple
  | detailed
deriving DecidableEq

/-- The configuration fields of `LogFormatter` (formatter.rs). -/
structure LogFormatterCfg where
  show_timestamp : Bool
  show_session_id : Bool
  compact_mode : Bool
  tool_display_mode : ToolDisplayMode
deriving DecidableEq

/-- Model of `LogFormatter::new` (formatter.rs). -/
def LogFormatter.new : LogFormatterCfg :=
  { show_timestamp := true, show_session_id := false, compact_mode := false,
    tool_display_mode := .simple }

/-- The configuration fields of `LogWatcher` (watcher.rs). The webhook
sender is modelled by its configuration (URL string and format name);
`startup_time` is the `Utc::now()` instant read at construction. -/
structure LogWatcherCfg where
  claude_dir : String
  formatter : LogFormatterCfg
  webhook : Option (String × String)
  include_existing : Bool
  startup_time : Int
deriving DecidableEq

/-- Model of `LogWatcher::new` (watcher.rs): `$HOME/.claude/projects`, a fresh
formatter, no webhook, `include_existing = false`, and the current instant
`now` as `startup_time`. -/
def LogWatcher.new (home : String) (now : Int) : LogWatcherCfg :=
  { claude_dir := home ++ "/.claude/projects", formatter := LogFormatter.new,
    webhook := none, include_existing := false, startup_time := now }

/-- The spawning part of `LogWatcher::watch_all` (watcher.rs, lines 224-239):
for every directory entry of `claude_dir` that is a directory, one task is
spawned whose watcher is `LogWatcher::new()` — the configuration `cfg` of
the watcher running `watch_all` is never consulted. `entries` is the
`read_dir` listing as pairs (entry path, is-directory); `now` is the clock
instant the spawned tasks read. -/
def watch_all_spawned (cfg : LogWatcherCfg) (entries : List (String × Bool))
    (home : String) (now : Int) : List (String × LogWatcherCfg) :=
  let _ := cfg
  (entries.filter (fun e => e.2)).map (fun e => (e.1, LogWatcher.new home now))

example : rustLines "partial" = ["partial"] := by decide
example : rustLines "a\nb\n" = ["a", "b"] := by decide
example : rustLines "a\r\nb" = ["a", "b"] := by decide
example : rustLines "\n" = [""] := by decide
example : rustLines "" = [] := by decide
example : read_new "partial" 0 = (["partial"], 8) := by decide
example : read_new "abc\n" 3 = ([""], 4) := by decide
example : rustTrimEnd "hi \n" = "hi" := by decide
example : rustTrim "  a b " = "a b" := by decide

/-!  ### Claim theorems  -/

/-- C1: the claim says a file ending in an unterminated partial line yields
no entry for that line and leaves `last_position` no further than the byte
after the last complete line's newline, so that the line is re-read once
completed. The code violates this: `BufRead::lines` yields the final
unterminated fragment too, and the loop adds `len + 1` for it. On the file
`"partial"` (7 bytes, no complete line, so the claimed cursor bound is 0)
the first call yields the raw line `"partial"` and sets `last_position = 8`
— one byte past end-of-file — and the call made after `"\n"` is appended
(file now 8 bytes) reads nothing at all, so it yields zero lines and hence
zero entries instead of the claimed one entry, whichever line parser `pl`
is plugged in. -/
theorem c1_partial_line_bug :
    ∀ pl : String → Except String LogMessage,
      read_new "partial" 0 = (["partial"], 8) ∧
      (∃ ms, parse_file pl (some "partial") 0 = Except.ok (ms, 8)) ∧
      parse_file pl (some "partial\n") 8 = Except.ok ([], 8) := by
  intro pl
  exact ⟨by decide, ⟨_, rfl⟩, rfl⟩

/-- Helper: the position computed by the read loop never decreases. -/
theorem read_new_le (ls : List String) (p : Nat) :
    p ≤ ls.foldl (fun a l => a + l.length + 1) p := by
  induction ls generalizing p with
  | nil => exact Nat.le_refl p
  | cons l t ih => exact Nat.le_trans (by omega) (ih (p + l.length + 1))

/-- C2: the cursor-monotonicity part of the claim holds (first conjunct),
but the round-trip part fails: when a call observes an unterminated partial
line, the bytes that later complete that line are skipped. Concretely,
reading the file `"ab"` yields the line `"ab"` and cursor 3 (one past
end-of-file); after the append of `"c\n"` (file `"abc\n"`) the next call
starts at 3, yields the line `""` and cursor 4. The lines yielded across
the two calls, `["ab", ""]`, do not reassemble the final content's single
complete line `"abc"`: the byte `c` is lost. -/
theorem c2_offset_bug :
    (∀ (content : String) (last_position : Nat),
        last_position ≤ (read_new content last_position).2) ∧
    read_new "ab" 0 = (["ab"], 3) ∧
    read_new "abc\n" 3 = ([""], 4) ∧
    (read_new "ab" 0).1 ++ (read_new "abc\n" 3).1 ≠ rustLines "abc\n" ∧
    rustLines "abc\n" = ["abc"] := by
  exact ⟨fun c p => read_new_le _ p, by decide, by decide, by decide, by decide⟩

/-- C5 counterexample: on a missing file (`content = none`) `parse_file`
does not return an empty message list — `File::open` fails and the `?`
propagates an error (the cursor is left unchanged). -/
theorem c5_counterexample :
    parse_file_state (fun _ => Except.error "") none 0 = (Except.error (), 0) ∧
    (Except.error () : Except Unit (List LogMessage)) ≠ Except.ok [] :=
  ⟨rfl, fun h => Except.noConfusion h⟩

/-- C5 amended: for a path that names no existing file, `parse_file` returns
an error — not an empty sequence — and leaves the cursor unchanged; the
watch loops catch and log that error, so the pipeline continues (the
catching lives in the event-loop side effects, outside this embedding). -/
theorem c5_missing_file_error :
    ∀ (pl : String → Except String LogMessage) (last_position : Nat),
      parse_file_state pl none last_position = (Except.error (), last_position) :=
  fun _ _ => rfl

/-- C3: the cutoff gate of `process_jsonl_file` lets an entry through
exactly when `include_existing` is set or its timestamp is at least the
startup instant, and an entry stopped by the gate reaches neither stdout
nor the webhook. -/
theorem c3_cutoff_gate :
    ∀ (include_existing : Bool) (startup_time : Int) (m : Entry)
      (webhook : Option (Option Bool)) (format : Entry → String),
      (cutoff_skips include_existing m.timestamp startup_time = false ↔
        (include_existing = true ∨ startup_time ≤ m.timestamp)) ∧
      (cutoff_skips include_existing m.timestamp startup_time = true →
        process_message include_existing startup_time webhook format m = (none, false)) := by
  intro inc st m webhook format
  constructor
  · cases inc <;> simp [cutoff_skips]
  · intro h
    simp [process_message, h]

/-- C3 witness: an entry one instant older than startup, with
`include_existing = false`, is dropped from both sinks. -/
theorem c3_cutoff_gate_witness :
    cutoff_skips false 0 1 = true ∧
    process_message false 1 none (fun _ => "x") ⟨0, none⟩ = (none, false) :=
  ⟨by decide, (c3_cutoff_gate false 1 ⟨0, none⟩ none (fun _ => "x")).2 (by decide)⟩

/-- C10: `watch_all` builds every spawned per-project watcher with
`LogWatcher::new()`: whatever the configuration of the watcher that runs
`watch_all` (webhook, include-existing, tool display), the spawned
pipelines all carry the defaults — no webhook, `include_existing = false`,
Simple tool display — and the startup instant read at spawn time. -/
theorem c10_watch_all_defaults :
    ∀ (cfg cfg' : LogWatcherCfg) (entries : List (String × Bool)) (home : String) (now : Int),
      watch_all_spawned cfg entries home now = watch_all_spawned cfg' entries home now ∧
      ∀ p ∈ watch_all_spawned cfg entries home now,
        p.2.webhook = none ∧ p.2.include_existing = false ∧
        p.2.formatter.tool_display_mode = ToolDisplayMode.simple ∧
        p.2.startup_time = now := by
  intro cfg cfg' entries home now
  refine ⟨rfl, ?_⟩
  intro p hp
  obtain ⟨e, _, hpe⟩ := List.mem_map.mp hp
  exact hpe ▸ ⟨rfl, rfl, rfl, rfl⟩

/-- C10 witness: a fully configured watcher (webhook set, include-existing
on, detailed tool display) spawns a default pipeline for its project. -/
theorem c10_watch_all_defaults_witness :
    (("p", LogWatcher.new "/h" 7) ∈ watch_all_spawned
        { claude_dir := "d", formatter := { LogFormatter.new with tool_display_mode := .detailed },
          webhook := some ("http://x", "slack"), include_existing := true, startup_time := 3 }
        [("p", true)] "/h" 7) ∧
    (LogWatcher.new "/h" 7).webhook = none ∧
    (LogWatcher.new "/h" 7).include_existing = false ∧
    (LogWatcher.new "/h" 7).formatter.tool_display_mode = ToolDisplayMode.simple ∧
    (LogWatcher.new "/h" 7).startup_time = 7 := by
  have hp : ("p", LogWatcher.new "/h" 7) ∈ watch_all_spawned
      { claude_dir := "d", formatter := { LogFormatter.new with tool_display_mode := .detailed },
        webhook := some ("http://x", "slack"), include_existing := true, startup_time := 3 }
      [("p", true)] "/h" 7 := by decide
  exact ⟨hp, (c10_watch_all_defaults
    { claude_dir := "d", formatter := { LogFormatter.new with tool_display_mode := .detailed },
      webhook := some ("http://x", "slack"), include_existing := true, startup_time := 3 }
    { claude_dir := "d", formatter := { LogFormatter.new with tool_display_mode := .detailed },
      webhook := some ("http://x", "slack"), include_existing := true, startup_time := 3 }
    [("p", true)] "/h" 7).2 _ hp⟩

/-- Helper: the `max_by_key` fold seeded with `some a` returns an element,
drawn from the list or the seed, whose modification time bounds both. -/
theorem foldl_pick_spec :
    ∀ (fs : List FsFile) (a : FsFile),
      ∃ f, fs.foldl pick_latest (some a) = some f ∧ (f = a ∨ f ∈ fs) ∧
        a.mtime ≤ f.mtime ∧ ∀ g ∈ fs, g.mtime ≤ f.mtime := by
  intro fs
  induction fs with
  | nil => exact fun a => ⟨a, rfl, Or.inl rfl, le_refl _, by simp⟩
  | cons x t ih =>
    intro a
    by_cases h : a.mtime ≤ x.mtime
    · obtain ⟨f, hf, hmem, hax, hall⟩ := ih x
      refine ⟨f, by simpa [pick_latest, h] using hf, ?_, le_trans h hax, ?_⟩
      · rcases hmem with rfl | hm
        · exact Or.inr (List.mem_cons_self _ _)
        · exact Or.inr (List.mem_cons_of_mem _ hm)
      · intro g hg
        rcases List.mem_cons.mp hg with rfl | hg'
        · exact hax
        · exact hall g hg'
    · obtain ⟨f, hf, hmem, hax, hall⟩ := ih a
      refine ⟨f, by simpa [pick_latest, h] using hf, ?_, hax, ?_⟩
      · rcases hmem with rfl | hm
        · exact Or.inl rfl
        · exact Or.inr (List.mem_cons_of_mem _ hm)
      · intro g hg
        rcases List.mem_cons.mp hg with rfl | hg'
        · exact le_trans (le_of_lt (not_le.mp h)) hax
        · exact hall g hg'

/-- Helper: whatever the `max_by_key` fold returns came from the list or
from its seed. -/
theorem foldl_pick_source :
    ∀ (fs : List FsFile) (acc : Option FsFile) (f : FsFile),
      fs.foldl pick_latest acc = some f → f ∈ fs ∨ acc = some f := by
  intro fs
  induction fs with
  | nil => exact fun acc f h => Or.inr h
  | cons x t ih =>
    intro acc f h
    rcases ih (pick_latest acc x) f h with hm | he
    · exact Or.inl (List.mem_cons_of_mem _ hm)
    · cases acc with
      | none =>
        simp only [pick_latest, Option.some.injEq] at he
        exact Or.inl (he ▸ List.mem_cons_self _ _)
      | some a =>
        by_cases hax : a.mtime ≤ x.mtime
        · have hx : x = f := by simpa [pick_latest, hax] using he
          exact Or.inl (hx ▸ List.mem_cons_self _ _)
        · have ha : a = f := by simpa [pick_latest, hax] using he
          exact Or.inr (by rw [ha])

/-- Helper: when the final element's time dominates the list and the seed,
the `max_by_key` fold picks the final element — Rust's last-wins tie-break. -/
theorem foldl_pick_last :
    ∀ (gs : List FsFile) (f : FsFile) (acc : Option FsFile),
      (∀ g ∈ gs, g.mtime ≤ f.mtime) → (∀ a, acc = some a → a.mtime ≤ f.mtime) →
      (gs ++ [f]).foldl pick_latest acc = some f := by
  intro gs f acc hgs hacc
  rw [List.foldl_append]
  cases hres : gs.foldl pick_latest acc with
  | none => rfl
  | some a =>
    have ha : a.mtime ≤ f.mtime := by
      rcases foldl_pick_source gs acc a hres with hm | he
      · exact hgs a hm
      · exact hacc a he
    simp [pick_latest, ha]

/-- Helper: the resolver core returns nothing exactly when no candidate
has the `.jsonl` extension. -/
theorem latest_jsonl_none_iff (files : List FsFile) :
    latest_jsonl files = none ↔ ∀ g ∈ files, is_jsonl g = false := by
  unfold latest_jsonl max_by_mtime
  constructor
  · intro h g hg
    by_contra hne
    have hj : is_jsonl g = true := by simpa using hne
    have hmem : g ∈ files.filter is_jsonl := List.mem_filter.mpr ⟨hg, hj⟩
    cases hfil : files.filter is_jsonl with
    | nil => rw [hfil] at hmem; cases hmem
    | cons x t =>
      rw [hfil] at h
      obtain ⟨f, hf, _⟩ := foldl_pick_spec t x
      rw [show (x :: t).foldl pick_latest none = t.foldl pick_latest (some x) from rfl, hf] at h
      cases h
  · intro h
    have hfil : files.filter is_jsonl = [] :=
      List.filter_eq_nil_iff.mpr (fun a ha => by simp [h a ha])
    rw [hfil]
    rfl

/-- Helper: a returned latest session is a `.jsonl` candidate whose
modification time dominates every `.jsonl` candidate. -/
theorem latest_jsonl_some (files : List FsFile) (f : FsFile) :
    latest_jsonl files = some f →
      f ∈ files ∧ is_jsonl f = true ∧
        ∀ g ∈ files, is_jsonl g = true → g.mtime ≤ f.mtime := by
  intro h
  unfold latest_jsonl max_by_mtime at h
  cases hfil : files.filter is_jsonl with
  | nil => rw [hfil] at h; cases h
  | cons x t =>
    rw [hfil] at h
    obtain ⟨f', hf', hmem, hax, hall⟩ := foldl_pick_spec t x
    rw [show (x :: t).foldl pick_latest none = t.foldl pick_latest (some x) from rfl, hf'] at h
    have hff : f' = f := Option.some.inj h
    rw [hff] at hmem hax hall
    have hfmem : f ∈ files.filter is_jsonl := by
      rw [hfil]
      rcases hmem with rfl | hm
      · exact List.mem_cons_self _ _
      · exact List.mem_cons_of_mem _ hm
    obtain ⟨hfin, hfj⟩ := List.mem_filter.mp hfmem
    refine ⟨hfin, hfj, ?_⟩
    intro g hg hgj
    have hgmem : g ∈ files.filter is_jsonl := List.mem_filter.mpr ⟨hg, hgj⟩
    rw [hfil] at hgmem
    rcases List.mem_cons.mp hgmem with rfl | hgt
    · exact hax
    · exact hall g hgt

/-- Helper: a trailing candidate whose time dominates all other candidates
is the one returned (ties included). -/
theorem latest_jsonl_last (gs : List FsFile) (f : FsFile) :
    is_jsonl f = true → (∀ g ∈ gs, is_jsonl g = true → g.mtime ≤ f.mtime) →
    latest_jsonl (gs ++ [f]) = some f := by
  intro hf hgs
  unfold latest_jsonl max_by_mtime
  rw [List.filter_append, show List.filter is_jsonl [f] = [f] by simp [hf]]
  exact foldl_pick_last (gs.filter is_jsonl) f none
    (fun g hg => hgs g (List.mem_filter.mp hg).1 (List.mem_filter.mp hg).2)
    (fun a ha => Option.noConfusion ha)

/-- Helper: the Boolean candidate filter agrees with the extension test. -/
theorem is_jsonl_iff (f : FsFile) :
    is_jsonl f = true ↔ rustExtension f.name = some "jsonl" := by
  simp [is_jsonl]

/-- C6: when the project-scoped resolver succeeds, it returns the name of a
candidate with the `.jsonl` extension whose modification time dominates
every `.jsonl` candidate (never a file with another extension); it fails
with the "no sessions" error exactly when no `.jsonl` candidate exists; a
trailing candidate tying the maximum is the one returned (deterministic
last-wins tie-break, not an error); and the global resolver behaves the
same on the flattened listing of all project directories. -/
theorem c6_latest_session_resolver :
    ∀ files : List FsFile,
      (∀ p, get_latest_session_in_project (some files) = Except.ok p →
        ∃ f ∈ files, f.name = p ∧ rustExtension p = some "jsonl" ∧
          ∀ g ∈ files, rustExtension g.name = some "jsonl" → g.mtime ≤ f.mtime) ∧
      ((∃ e, get_latest_session_in_project (some files) = Except.error e) ↔
        ∀ g ∈ files, rustExtension g.name ≠ some "jsonl") ∧
      (∀ gs f, files = gs ++ [f] → rustExtension f.name = some "jsonl" →
        (∀ g ∈ gs, rustExtension g.name = some "jsonl" → g.mtime ≤ f.mtime) →
        get_latest_session_in_project (some files) = Except.ok f.name) ∧
      (∀ dirs : List (Option (List FsFile)), (dirs.filterMap id).flatten = files →
        (∀ p, get_latest_session (some dirs) = Except.ok p ↔
          get_latest_session_in_project (some files) = Except.ok p) ∧
        ((∃ e, get_latest_session (some dirs) = Except.error e) ↔
          (∃ e, get_latest_session_in_project (some files) = Except.error e))) := by
  intro files
  refine ⟨?_, ?_, ?_, ?_⟩
  · intro p hp
    cases hl : latest_jsonl files with
    | none => simp [get_latest_session_in_project, hl] at hp
    | some f =>
      simp only [get_latest_session_in_project, hl, Except.ok.injEq] at hp
      obtain ⟨hfin, hfj, hmax⟩ := latest_jsonl_some files f hl
      subst hp
      exact ⟨f, hfin, rfl, (is_jsonl_iff f).mp hfj,
        fun g hg hgj => hmax g hg ((is_jsonl_iff g).mpr hgj)⟩
  · constructor
    · rintro ⟨e, he⟩ g hg
      cases hl : latest_jsonl files with
      | some f => simp [get_latest_session_in_project, hl] at he
      | none =>
        have hb := (latest_jsonl_none_iff files).mp hl g hg
        simpa [is_jsonl] using hb
    · intro h
      have hl : latest_jsonl files = none := (latest_jsonl_none_iff files).mpr
        (fun g hg => by simpa [is_jsonl] using h g hg)
      exact ⟨"No session files found in project",
        by simp [get_latest_session_in_project, hl]⟩
  · intro gs f hfeq hfj hgs
    subst hfeq
    have hl := latest_jsonl_last gs f ((is_jsonl_iff f).mpr hfj)
      (fun g hg hj => hgs g hg ((is_jsonl_iff g).mp hj))
    simp [get_latest_session_in_project, hl]
  · intro dirs hflat
    cases hl : latest_jsonl files with
    | some f =>
      constructor
      · intro p
        simp [get_latest_session, get_latest_session_in_project, hflat, hl]
      · constructor <;> rintro ⟨e, he⟩ <;>
          simp [get_latest_session, get_latest_session_in_project, hflat, hl] at he
    | none =>
      constructor
      · intro p
        simp [get_latest_session, get_latest_session_in_project, hflat, hl]
      · exact ⟨fun _ => ⟨"No session files found in project",
            by simp [get_latest_session_in_project, hl]⟩,
          fun _ => ⟨"No session files found",
            by simp [get_latest_session, hflat, hl]⟩⟩

/-- C6 witness: two `.jsonl` candidates with the same modification time —
the resolver deterministically returns the second (last seen), no error. -/
theorem c6_latest_session_resolver_witness :
    ([⟨"a.jsonl", 5⟩, ⟨"b.jsonl", 5⟩] : List FsFile) = [⟨"a.jsonl", 5⟩] ++ [⟨"b.jsonl", 5⟩] ∧
    rustExtension "b.jsonl" = some "jsonl" ∧
    get_latest_session_in_project (some [⟨"a.jsonl", 5⟩, ⟨"b.jsonl", 5⟩]) =
      Except.ok "b.jsonl" := by
  refine ⟨rfl, by decide, ?_⟩
  exact (c6_latest_session_resolver [⟨"a.jsonl", 5⟩, ⟨"b.jsonl", 5⟩]).2.2.1
    [⟨"a.jsonl", 5⟩] ⟨"b.jsonl", 5⟩ rfl (by decide)
    (by
      intro g hg hj
      rcases List.mem_cons.mp hg with rfl | h'
      · decide
      · cases h')

/-- The claim-side validity predicate for one raw line (C7): well-formed
JSON matching the record schema (including the `role`/`content` schema of
the message body), a record kind of `user` or `assistant`, a present message
body, a recognized role string, and a parseable timestamp. -/
def ValidRecord (jp : String → Option Json) (tp : String → Option Int)
    (line : String) : Prop :=
  ∃ j raw, jp line = some j ∧ deserRaw j = some raw ∧
    (raw.entry_type = "user" ∨ raw.entry_type = "assistant") ∧
    ∃ m, raw.message = some m ∧
      ∃ cm, deserMessageContent m = some cm ∧
        (cm.role = "user" ∨ cm.role = "assistant" ∨ cm.role = "system") ∧
        ∃ ts, tp raw.timestamp = some ts

/-- Helper: the negated kind test of `parse_line` means the kind is one of
the two accepted ones. -/
theorem type_ok_of_not (a : String) (h : ¬(a ≠ "user" ∧ a ≠ "assistant")) :
    a = "user" ∨ a = "assistant" := by
  by_contra hc
  push_neg at hc
  exact h hc

/-- Helper: a successful role match means a recognized role string. -/
theorem roleOf_some (r : String) (ro : MessageRole) :
    roleOf r = some ro → r = "user" ∨ r = "assistant" ∨ r = "system" := by
  unfold roleOf
  intro h
  split_ifs at h with h1 h2 h3
  · exact Or.inl h1
  · exact Or.inr (Or.inl h2)
  · exact Or.inr (Or.inr h3)

/-- Helper: every recognized role string is matched to a role. -/
theorem roleOf_total (r : String) :
    r = "user" ∨ r = "assistant" ∨ r = "system" → ∃ ro, roleOf r = some ro := by
  rintro (rfl | rfl | rfl) <;> exact ⟨_, rfl⟩

/-- C7: `parse_line` returns an entry exactly on a valid record, and an
error (the caller skips the line) exactly otherwise — that is, exactly when
the line is not well-formed JSON matching the record schema, or its kind is
neither `user` nor `assistant`, or its message is absent, or its role string
is unrecognized, or its timestamp does not parse. Being an `Except`, a
success carries exactly one entry. -/
theorem c7_parse_line_rejects :
    ∀ (jp : String → Option Json) (tp : String → Option Int) (line : String),
      ((∃ msg, parse_line jp tp line = Except.ok msg) ↔ ValidRecord jp tp line) ∧
      ((∃ e, parse_line jp tp line = Except.error e) ↔ ¬ ValidRecord jp tp line) := by
  intro jp tp line
  have h1 : (∃ msg, parse_line jp tp line = Except.ok msg) ↔ ValidRecord jp tp line := by
    constructor
    · rintro ⟨msg, hok⟩
      unfold parse_line at hok
      cases hjp : jp line with
      | none => simp [hjp] at hok
      | some j =>
        simp only [hjp] at hok
        cases hdr : deserRaw j with
        | none => simp [hdr] at hok
        | some raw =>
          simp only [hdr] at hok
          by_cases htype : raw.entry_type ≠ "user" ∧ raw.entry_type ≠ "assistant"
          · rw [if_pos htype] at hok; exact Except.noConfusion hok
          · rw [if_neg htype] at hok
            cases hmsg : raw.message with
            | none => simp [hmsg] at hok
            | some m =>
              simp only [hmsg] at hok
              cases hcm : deserMessageContent m with
              | none => simp [hcm] at hok
              | some cm =>
                simp only [hcm] at hok
                cases hro : roleOf cm.role with
                | none => simp [hro] at hok
                | some ro =>
                  simp only [hro] at hok
                  cases hts : tp raw.timestamp with
                  | none => simp [hts] at hok
                  | some ts =>
                    exact ⟨j, raw, hjp, hdr, type_ok_of_not _ htype, m, hmsg, cm, hcm,
                      roleOf_some _ _ hro, ts, hts⟩
    · rintro ⟨j, raw, hjp, hdr, htype, m, hmsg, cm, hcm, hrole, ts, hts⟩
      have hcond : ¬(raw.entry_type ≠ "user" ∧ raw.entry_type ≠ "assistant") := by
        rintro ⟨hu, ha⟩
        rcases htype with h | h
        · exact hu h
        · exact ha h
      obtain ⟨ro, hro⟩ := roleOf_total _ hrole
      unfold parse_line
      simp only [hjp, hdr, if_neg hcond, hmsg, hcm, hro, hts]
      exact ⟨_, rfl⟩
  refine ⟨h1, ?_⟩
  cases hp : parse_line jp tp line with
  | ok m =>
    constructor
    · rintro ⟨e, he⟩
      exact Except.noConfusion he
    · intro hnv
      exact absurd (h1.mp ⟨m, hp⟩) hnv
  | error e =>
    constructor
    · rintro ⟨e', _⟩ hV
      obtain ⟨m, hm⟩ := h1.mpr hV
      rw [hp] at hm
      exact Except.noConfusion hm
    · intro _
      exact ⟨e, rfl⟩

/-- C7 witness: a well-formed `user` record parses to exactly one entry. -/
theorem c7_parse_line_rejects_witness :
    ∃ msg,
      parse_line
        (fun _ => some (Json.obj [("type", Json.str "user"),
          ("message", Json.obj [("role", Json.str "user"), ("content", Json.str "hello")]),
          ("timestamp", Json.str "2024-01-01T00:00:00Z"), ("uuid", Json.str "u1")]))
        (fun _ => some 100) "ln" = Except.ok msg := by
  apply (c7_parse_line_rejects _ _ _).1.mpr
  exact ⟨_, _, rfl, rfl, Or.inl rfl, _, rfl, _, rfl, Or.inl rfl, 100, rfl⟩

/-- The spec's closed typed-block view of a structured message body (C8):
text, tool invocation, tool result, thinking, or another tagged kind. -/
inductive ContentBlock where
  | text (s : String)
  | tool_use (toolName : String)
  | tool_result
  | thinking
  | other (tag : String)

/-- The JSON encoding of a typed block, as the upstream tool writes it
(only the fields `extract_content` reads). -/
def ContentBlock.toJson : ContentBlock → Json
  | .text s => .obj [("type", .str "text"), ("text", .str s)]
  | .tool_use n => .obj [("type", .str "tool_use"), ("name", .str n)]
  | .tool_result => .obj [("type", .str "tool_result")]
  | .thinking => .obj [("type", .str "thinking")]
  | .other tag => .obj [("type", .str tag)]

/-- The line the spec's display-text policy assigns to one block: literal
text, a marker naming the tool, a detail-free result marker, a thinking
marker, or a marker naming the tag. -/
def ContentBlock.renderedLine : ContentBlock → String
  | .text s => s
  | .tool_use n => "[Tool Use: " ++ n ++ "]"
  | .tool_result => "[Tool Result]"
  | .thinking => "[Thinking...]"
  | .other tag => "[" ++ tag ++ "]"

/-- Well-formedness of a typed block: an `other` tag is none of the four
reserved tags (otherwise its encoding would denote a reserved block). -/
def ContentBlock.wf : ContentBlock → Prop
  | .other tag => tag ≠ "text" ∧ tag ≠ "tool_use" ∧ tag ≠ "tool_result" ∧ tag ≠ "thinking"
  | _ => True

/-- Helper: on the encoding of a well-formed typed block, the extraction
loop contributes exactly the block's rendered line. -/
theorem content_piece_toJson (b : ContentBlock) (hb : b.wf) :
    content_piece b.toJson = some b.renderedLine := by
  cases b with
  | text s => rfl
  | tool_use n => rfl
  | tool_result => rfl
  | thinking => rfl
  | other tag =>
    obtain ⟨h1, h2, h3, h4⟩ := hb
    simp [content_piece, ContentBlock.toJson, ContentBlock.renderedLine,
      Json.asObj, Json.lookup, Json.asStr, h1, h2, h3, h4]

/-- Helper: the extraction loop over encoded well-formed blocks produces
exactly the rendered lines, in order. -/
theorem filterMap_content_piece (blocks : List ContentBlock)
    (h : ∀ b ∈ blocks, b.wf) :
    (blocks.map ContentBlock.toJson).filterMap content_piece =
      blocks.map ContentBlock.renderedLine := by
  induction blocks with
  | nil => rfl
  | cons b t ih =>
    have hb : b.wf := h b (List.mem_cons_self _ _)
    have ht : ∀ x ∈ t, x.wf := fun x hx => h x (List.mem_cons_of_mem _ hx)
    simp [List.filterMap_cons, content_piece_toJson b hb, ih ht]

/-- C8 counterexample: the claim allows only trailing *blank lines* to be
trimmed, so a single text block `"hi "` should yield `"hi "`; the code's
`trim_end` also removes the trailing space inside the final non-blank line
and yields `"hi"`. -/
theorem c8_counterexample :
    extract_content (Json.arr [Json.obj [("type", Json.str "text"), ("text", Json.str "hi ")]]) = "hi" ∧
    "hi" ≠ "hi " :=
  ⟨by decide, by decide⟩

/-- C8 amended: a plain-string body is returned as-is, and for a body that
is an array of (well-formed) typed blocks the display text is the in-order,
one-line-per-block concatenation of the per-block lines with all trailing
*whitespace* (Rust `trim_end`, not just trailing blank lines) removed. -/
theorem c8_display_text :
    (∀ s, extract_content (Json.str s) = s) ∧
    ∀ blocks : List ContentBlock, (∀ b ∈ blocks, b.wf) →
      extract_content (Json.arr (blocks.map ContentBlock.toJson)) =
        rustTrimEnd (String.join (blocks.map (fun b => b.renderedLine ++ "\n"))) := by
  refine ⟨fun s => rfl, fun blocks h => ?_⟩
  simp only [extract_content]
  rw [filterMap_content_piece blocks h, List.map_map]
  rfl

/-- C8 witness: a text block followed by an unknown-tag block renders as
the text line, the tag marker line, with the trailing newline trimmed. -/
theorem c8_display_text_witness :
    (∀ b ∈ [ContentBlock.text "a", ContentBlock.other "foo"], ContentBlock.wf b) ∧
    extract_content (Json.arr ([ContentBlock.text "a", ContentBlock.other "foo"].map ContentBlock.toJson)) =
      rustTrimEnd (String.join ([ContentBlock.text "a", ContentBlock.other "foo"].map
        (fun b => b.renderedLine ++ "\n"))) ∧
    extract_content (Json.arr ([ContentBlock.text "a", ContentBlock.other "foo"].map ContentBlock.toJson)) =
      "a\n[foo]" := by
  have h : ∀ b ∈ [ContentBlock.text "a", ContentBlock.other "foo"], ContentBlock.wf b := by
    intro b hb
    rcases List.mem_cons.mp hb with rfl | hb'
    · trivial
    · rcases List.mem_cons.mp hb' with rfl | hb''
      · exact ⟨by decide, by decide, by decide, by decide⟩
      · cases hb''
  exact ⟨h, c8_display_text.2 _ h, by decide⟩

/-- Spec-side view (C4): the declared string type of a block. -/
def blockType (j : Json) : Option String :=
  j.asObj.bind (fun fs => (Json.lookup fs "type").bind Json.asStr)

/-- Spec-side view (C4): the string `name` field of a block. -/
def blockName (j : Json) : Option String :=
  j.asObj.bind (fun fs => (Json.lookup fs "name").bind Json.asStr)

/-- Spec-side view (C4): the string `text` field of a block. -/
def blockTextField (j : Json) : Option String :=
  j.asObj.bind (fun fs => (Json.lookup fs "text").bind Json.asStr)

/-- Spec-side predicate (C4): a `"text"` block carrying non-empty
(non-whitespace) text. -/
def MeaningfulTextBlock (j : Json) : Prop :=
  blockType j = some "text" ∧ ∃ t, blockTextField j = some t ∧ rustTrim t ≠ ""

/-- The amended noise-gate condition (C4): no meaningful text block, and
either every declared block type is `tool_result`, or — whenever at least
one `tool_use` block exists — every string `name` field on *any* block
(not only on `tool_use` blocks) names `Read` or `Edit`. -/
def WebhookNoiseSuppressed (items : List Json) : Prop :=
  (∀ j ∈ items, ¬ MeaningfulTextBlock j) ∧
  ((∀ j ∈ items, ∀ t, blockType j = some t → t = "tool_result") ∨
   ((∃ j ∈ items, blockType j = some "tool_use") →
     ∀ j ∈ items, ∀ n, blockName j = some n → n = "Read" ∨ n = "Edit"))

/-- Helper: the object-level text flag in terms of field lookups. -/
theorem text_block_flag_iff (fs : List (String × Json)) :
    text_block_flag fs = true ↔
      ((Json.lookup fs "type").bind Json.asStr = some "text" ∧
        ∃ t, (Json.lookup fs "text").bind Json.asStr = some t ∧ rustTrim t ≠ "") := by
  unfold text_block_flag
  cases htype : (Json.lookup fs "type").bind Json.asStr with
  | none => simp
  | some t =>
    dsimp only
    by_cases ht : t = "text"
    · subst ht
      rw [if_pos rfl]
      cases htxt : (Json.lookup fs "text").bind Json.asStr with
      | none => simp
      | some txt =>
        dsimp only
        simp [String.isEmpty_iff, Bool.eq_false_iff]
    · rw [if_neg ht]
      simp [ht]

/-- Helper: the `has_text` pass detects exactly a meaningful text block. -/
theorem has_meaningful_text_iff (arr : List Json) :
    has_meaningful_text arr = true ↔ ∃ j ∈ arr, MeaningfulTextBlock j := by
  unfold has_meaningful_text
  rw [List.any_eq_true]
  constructor
  · rintro ⟨fs, hfs, hp⟩
    obtain ⟨j, hj, hobj⟩ := List.mem_filterMap.mp hfs
    obtain ⟨hty, t, htx, hne⟩ := (text_block_flag_iff fs).mp hp
    exact ⟨j, hj, by simp [MeaningfulTextBlock, blockType, blockTextField, hobj, hty],
      t, by simp [blockTextField, hobj, htx], hne⟩
  · rintro ⟨j, hj, hty, t, htx, hne⟩
    unfold blockType at hty
    obtain ⟨fs, hobj, hk⟩ := Option.bind_eq_some.mp hty
    refine ⟨fs, List.mem_filterMap.mpr ⟨j, hj, hobj⟩, (text_block_flag_iff fs).mpr ⟨hk, t, ?_, hne⟩⟩
    unfold blockTextField at htx
    obtain ⟨fs', hobj', hk'⟩ := Option.bind_eq_some.mp htx
    rw [hobj] at hobj'
    exact Option.some.inj hobj' ▸ hk'

/-- Helper: membership in the collected type fields. -/
theorem content_types_mem (arr : List Json) (t : String) :
    t ∈ content_types arr ↔ ∃ j ∈ arr, blockType j = some t := by
  unfold content_types
  rw [List.mem_filterMap]
  constructor
  · rintro ⟨fs, hfs, hbind⟩
    obtain ⟨j, hj, hobj⟩ := List.mem_filterMap.mp hfs
    exact ⟨j, hj, by simp [blockType, hobj, hbind]⟩
  · rintro ⟨j, hj, hb⟩
    unfold blockType at hb
    obtain ⟨fs, hobj, hk⟩ := Option.bind_eq_some.mp hb
    exact ⟨fs, List.mem_filterMap.mpr ⟨j, hj, hobj⟩, hk⟩

/-- Helper: membership in the collected name fields. -/
theorem content_names_mem (arr : List Json) (n : String) :
    n ∈ content_names arr ↔ ∃ j ∈ arr, blockName j = some n := by
  unfold content_names
  rw [List.mem_filterMap]
  constructor
  · rintro ⟨fs, hfs, hbind⟩
    obtain ⟨j, hj, hobj⟩ := List.mem_filterMap.mp hfs
    exact ⟨j, hj, by simp [blockName, hobj, hbind]⟩
  · rintro ⟨j, hj, hb⟩
    unfold blockName at hb
    obtain ⟨fs, hobj, hk⟩ := Option.bind_eq_some.mp hb
    exact ⟨fs, List.mem_filterMap.mpr ⟨j, hj, hobj⟩, hk⟩

/-- Helper: the `only_tool_results` pass in quantifier form. -/
theorem only_tool_results_iff (arr : List Json) :
    ((content_types arr).all fun t => t = "tool_result") = true ↔
      ∀ j ∈ arr, ∀ t, blockType j = some t → t = "tool_result" := by
  rw [List.all_eq_true]
  constructor
  · intro h j hj t ht
    exact of_decide_eq_true (h t ((content_types_mem arr t).mpr ⟨j, hj, ht⟩))
  · intro h t htmem
    obtain ⟨j, hj, hbt⟩ := (content_types_mem arr t).mp htmem
    exact decide_eq_true (h j hj t hbt)

/-- Helper: the `only_read_edit_tools` pass in quantifier form — note the
name check ranges over the names of all blocks, and is vacuous without a
`tool_use` block. -/
theorem only_read_edit_iff (arr : List Json) :
    (((content_types arr).filter fun t => t = "tool_use").all
        fun _ => (content_names arr).all fun n => n = "Read" || n = "Edit") = true ↔
      ((∃ j ∈ arr, blockType j = some "tool_use") →
        ∀ j ∈ arr, ∀ n, blockName j = some n → n = "Read" ∨ n = "Edit") := by
  rw [List.all_eq_true]
  constructor
  · intro h hex j hj n hn
    obtain ⟨j', hj', hbt⟩ := hex
    have htm : "tool_use" ∈ (content_types arr).filter (fun t => t = "tool_use") :=
      List.mem_filter.mpr ⟨(content_types_mem arr _).mpr ⟨j', hj', hbt⟩, by simp⟩
    have hall := h _ htm
    rw [List.all_eq_true] at hall
    have hthis := hall n ((content_names_mem arr n).mpr ⟨j, hj, hn⟩)
    simpa using hthis
  · intro h x hx
    rw [List.all_eq_true]
    intro n hnmem
    obtain ⟨hxmem, hxz⟩ := List.mem_filter.mp hx
    have hxt : x = "tool_use" := by simpa using hxz
    subst hxt
    obtain ⟨j', hj', hbt⟩ := (content_types_mem arr _).mp hxmem
    obtain ⟨j, hj, hbn⟩ := (content_names_mem arr n).mp hnmem
    have hthis := h ⟨j', hj', hbt⟩ j hj n hbn
    simpa using hthis

/-- C4 counterexample: two blocks — a `tool_use` naming the allow-listed
`Read`, and a `tool_result` carrying a stray `"name": "Bash"` field. There
is no text block, and every `tool_use` block names an allow-listed tool, so
the claim requires suppression; the code does not suppress, because its
name check also reads the `tool_result` block's `name` field (`Bash`). -/
theorem c4_counterexample :
    (∀ j ∈ [Json.obj [("type", Json.str "tool_use"), ("name", Json.str "Read")],
            Json.obj [("type", Json.str "tool_result"), ("name", Json.str "Bash")]],
       ¬ MeaningfulTextBlock j) ∧
    (∀ j ∈ [Json.obj [("type", Json.str "tool_use"), ("name", Json.str "Read")],
            Json.obj [("type", Json.str "tool_result"), ("name", Json.str "Bash")]],
       blockType j = some "tool_use" →
         ∃ n, blockName j = some n ∧ (n = "Read" ∨ n = "Edit")) ∧
    is_low_information_message_for_webhook
      (some (Json.arr [Json.obj [("type", Json.str "tool_use"), ("name", Json.str "Read")],
        Json.obj [("type", Json.str "tool_result"), ("name", Json.str "Bash")]])) = false := by
  refine ⟨?_, ?_, by decide⟩
  · intro j hj
    rcases List.mem_cons.mp hj with rfl | hj'
    · rintro ⟨ht, _⟩
      exact absurd ht (by decide)
    · rcases List.mem_cons.mp hj' with rfl | hj''
      · rintro ⟨ht, _⟩
        exact absurd ht (by decide)
      · cases hj''
  · intro j hj
    rcases List.mem_cons.mp hj with rfl | hj'
    · exact fun _ => ⟨"Read", by decide, Or.inl rfl⟩
    · rcases List.mem_cons.mp hj' with rfl | hj''
      · intro ht
        exact absurd ht (by decide)
      · cases hj''

/-- C4 amended: for an array body, the webhook noise gate suppresses
(`send_message` returns `Skipped`) exactly under `WebhookNoiseSuppressed`:
no non-whitespace text block AND (every declared block type is
`tool_result`, OR — whenever a `tool_use` block exists — every string
`name` field on any block is `Read` or `Edit`). In particular the claim's
examples hold: a lone tool-result block is suppressed while its extracted
display text `"[Tool Result]"` is non-empty for stdout, and an
empty-string text block next to a `Bash` tool invocation is not
suppressed. -/
theorem c4_webhook_noise_gate :
    ∀ (items : List Json) (net : Option Bool),
      (is_low_information_message_for_webhook (some (Json.arr items)) = true ↔
        WebhookNoiseSuppressed items) ∧
      (send_message net (some (Json.arr items)) = Except.ok WebhookResult.skipped ↔
        WebhookNoiseSuppressed items) ∧
      is_low_information_message_for_webhook
        (some (Json.arr [Json.obj [("type", Json.str "tool_result")]])) = true ∧
      extract_content (Json.arr [Json.obj [("type", Json.str "tool_result")]]) = "[Tool Result]" ∧
      is_low_information_message_for_webhook
        (some (Json.arr [Json.obj [("type", Json.str "text"), ("text", Json.str "")],
          Json.obj [("type", Json.str "tool_use"), ("name", Json.str "Bash")]])) = false := by
  intro items net
  have hiff : is_low_information_message_for_webhook (some (Json.arr items)) = true ↔
      WebhookNoiseSuppressed items := by
    unfold is_low_information_message_for_webhook WebhookNoiseSuppressed
    dsimp only
    by_cases hht : has_meaningful_text items = true
    · rw [if_pos hht]
      constructor
      · intro hfalse
        exact Bool.noConfusion hfalse
      · rintro ⟨hno, _⟩
        obtain ⟨j, hj, hm⟩ := (has_meaningful_text_iff items).mp hht
        exact absurd hm (hno j hj)
    · rw [if_neg hht]
      rw [Bool.or_eq_true]
      have hno : ∀ j ∈ items, ¬ MeaningfulTextBlock j := by
        intro j hj hm
        exact hht ((has_meaningful_text_iff items).mpr ⟨j, hj, hm⟩)
      constructor
      · rintro (h | h)
        · exact ⟨hno, Or.inl ((only_tool_results_iff items).mp h)⟩
        · exact ⟨hno, Or.inr ((only_read_edit_iff items).mp h)⟩
      · rintro ⟨_, h | h⟩
        · exact Or.inl ((only_tool_results_iff items).mpr h)
        · exact Or.inr ((only_read_edit_iff items).mpr h)
  refine ⟨hiff, ?_, by decide, by decide, by decide⟩
  unfold send_message
  by_cases hlow : is_low_information_message_for_webhook (some (Json.arr items)) = true
  · rw [if_pos hlow]
    exact ⟨fun _ => hiff.mp hlow, fun _ => rfl⟩
  · rw [if_neg hlow]
    constructor
    · intro h
      cases net with
      | none => exact Except.noConfusion h
      | some b =>
        cases b with
        | true => exact WebhookResult.noConfusion (Except.ok.inj h)
        | false => exact Except.noConfusion h
    · intro hwns
      exact absurd (hiff.mpr hwns) hlow

/-- C4 witness: a lone tool-result block makes `send_message` skip without
touching the network. -/
theorem c4_webhook_noise_gate_witness :
    send_message (some true) (some (Json.arr [Json.obj [("type", Json.str "tool_result")]])) =
      Except.ok WebhookResult.skipped := by
  apply (c4_webhook_noise_gate [Json.obj [("type", Json.str "tool_result")]] (some true)).2.1.mpr
  constructor
  · intro j hj
    rcases List.mem_cons.mp hj with rfl | hj'
    · rintro ⟨ht, _⟩
      exact absurd ht (by decide)
    · cases hj'
  · left
    intro j hj t ht
    rcases List.mem_cons.mp hj with rfl | hj'
    · exact (Option.some.inj ht).symm
    · cases hj'

/-- C9: when an entry passes the cutoff gate, renders non-empty, is not
noise-suppressed, and the webhook delivery fails (transport error
`net = none` or non-success status `net = some false`), the loop still
prints the entry to stdout with the distinguishing " [webhook: failed]"
marker, and the remaining entries are processed exactly as they would
otherwise be — the tailing loop does not abort. -/
theorem c9_webhook_failure_isolated :
    ∀ (include_existing : Bool) (startup_time : Int) (net : Option Bool)
      (format : Entry → String) (m : Entry) (rest : List Entry),
      cutoff_skips include_existing m.timestamp startup_time = false →
      (rustTrim (format m)).isEmpty = false →
      is_low_information_message_for_webhook m.raw_content = false →
      net ≠ some true →
      process_messages include_existing startup_time (some net) format (m :: rest) =
        (format m ++ " [webhook: failed]") ::
          process_messages include_existing startup_time (some net) format rest := by
  intro inc st net format m rest hgate hfmt hlow hnet
  have hsend : send_message net m.raw_content = Except.error () := by
    unfold send_message
    rw [if_neg (by simp [hlow])]
    cases net with
    | none => rfl
    | some b =>
      cases b with
      | true => exact absurd rfl hnet
      | false => rfl
  have hpm : process_message inc st (some net) format m =
      (some (format m ++ " [webhook: failed]"), true) := by
    unfold process_message
    simp [hgate, hfmt, hsend]
  simp only [process_messages, hpm]

/-- C9 witness: a failing webhook send (non-success status) still prints
the rendered entry with the failure marker. -/
theorem c9_webhook_failure_isolated_witness :
    cutoff_skips true 0 0 = false ∧
    (rustTrim "x").isEmpty = false ∧
    is_low_information_message_for_webhook (none : Option Json) = false ∧
    (some false : Option Bool) ≠ some true ∧
    process_messages true 0 (some (some false)) (fun _ => "x") [⟨0, none⟩] =
      ["x [webhook: failed]"] := by
  refine ⟨by decide, by decide, rfl, by decide, ?_⟩
  rw [c9_webhook_failure_isolated true 0 (some false) (fun _ => "x") ⟨0, none⟩ []
    (by decide) (by decide) rfl (by decide)]
  rfl

end ClaudeLogger
